import Mathlib

/-!
A shallow embedding of the destination-label indexing and matching engine of
`src/label_manager.py` (class `DestinationLabelManager` and its data types),
together with proofs about the claims of the specification.

Modelling conventions:
* Python dicts become association lists with dict semantics: `dictGet` returns
  the value of the first matching key, `dictSet` replaces the first matching
  key in place, or appends a fresh key at the end (CPython dicts preserve
  insertion order and keep the position of an overwritten key).
* Python sets become lists without duplicates: `setAdd` appends when absent.
  Iteration order of a CPython set is unspecified, so no theorem below depends
  on the relative order of elements taken from a set before sorting.
* Python floats become exact rationals `ℚ` (the idealised real semantics of
  the scoring formulas; the claims' numeric assertions are stated exactly).
* `list.sort(key=..., reverse=True)` is a stable sort; a stable sort's output
  is uniquely determined by the comparison key and the input order, so it is
  modelled by Mathlib's stable `List.insertionSort` with the relation
  "weight not smaller".
* File I/O in `export_tags`/`import_tags` is abstracted away: export produces
  the structured data that would be serialised to JSON, import consumes it.
  A `ValueError` raised by an unknown enum code during import is modelled by
  the `Bool` component of `importTagsAux` becoming `false`; the manager
  component is the state at the moment the error is raised.
-/

/-- ISO 639-1 language codes supported by the engine (`LanguageCode` enum). -/
inductive LanguageCode where
  | zh | en | ja | ko | fr | es | de
deriving DecidableEq

/-- The string value of a language code (`LanguageCode(str, Enum)` member value). -/
def LanguageCode.value : LanguageCode → String
  | .zh => "zh"
  | .en => "en"
  | .ja => "ja"
  | .ko => "ko"
  | .fr => "fr"
  | .es => "es"
  | .de => "de"

/-- Decoding a language code from its string value: `LanguageCode(s)` returns the
member, or raises `ValueError` (modelled by `none`) for an unknown code. -/
def LanguageCode.ofValue (s : String) : Option LanguageCode :=
  if s = "zh" then some .zh
  else if s = "en" then some .en
  else if s = "ja" then some .ja
  else if s = "ko" then some .ko
  else if s = "fr" then some .fr
  else if s = "es" then some .es
  else if s = "de" then some .de
  else none

/-- Tag categories (`TagCategory` enum). -/
inductive TagCategory where
  | scenery | activity | culture | climate | crowd | budget | transport | facility
deriving DecidableEq

/-- The string value of a tag category. -/
def TagCategory.value : TagCategory → String
  | .scenery => "scenery"
  | .activity => "activity"
  | .culture => "culture"
  | .climate => "climate"
  | .crowd => "crowd"
  | .budget => "budget"
  | .transport => "transport"
  | .facility => "facility"

/-- Decoding a tag category from its string value; `none` models `ValueError`. -/
def TagCategory.ofValue (s : String) : Option TagCategory :=
  if s = "scenery" then some .scenery
  else if s = "activity" then some .activity
  else if s = "culture" then some .culture
  else if s = "climate" then some .climate
  else if s = "crowd" then some .crowd
  else if s = "budget" then some .budget
  else if s = "transport" then some .transport
  else if s = "facility" then some .facility
  else none

/-- Lookup in a Python dict modelled as an association list: the value of the
first matching key, `none` when absent (`d.get(k)` / `k in d`). -/
def dictGet {κ α : Type} [DecidableEq κ] (k : κ) : List (κ × α) → Option α
  | [] => none
  | (k', v) :: rest => if k' = k then some v else dictGet k rest

/-- Assignment `d[k] = v` in a Python dict: replaces the first matching key in
place, appends a fresh key at the end. -/
def dictSet {κ α : Type} [DecidableEq κ] (k : κ) (v : α) : List (κ × α) → List (κ × α)
  | [] => [(k, v)]
  | (k', v') :: rest => if k' = k then (k, v) :: rest else (k', v') :: dictSet k v rest

/-- `s.add(x)` on a Python set modelled as a duplicate-free list. -/
def setAdd {α : Type} [DecidableEq α] (x : α) (s : List α) : List α :=
  if x ∈ s then s else s ++ [x]

/-- `MultilingualTag` dataclass. `weight` defaults to `1.0`; the open-ended
float is modelled as `ℚ`. -/
structure MultilingualTag where
  id : String
  category : TagCategory
  synonyms : List (LanguageCode × List String) := []
  description : List (LanguageCode × String) := []
  weight : ℚ := 1
  parent_id : Option String := none
deriving DecidableEq

/-- `MultilingualTag.get_all_names`: all synonyms of the tag in `lang`, the
empty list when the language is absent. -/
def MultilingualTag.getAllNames (t : MultilingualTag) (lang : LanguageCode) : List String :=
  (dictGet lang t.synonyms).getD []

/-- `Destination` dataclass. The open-ended `metadata: Dict[str, Any]` field is
not modelled (no claim mentions it); `tags` maps tag ids to relevance scores. -/
structure Destination where
  id : String
  names : List (LanguageCode × String) := []
  coordinates : Option (ℚ × ℚ) := none
  country_code : Option String := none
  administrative_level : Option String := none
  tags : List (String × ℚ) := []
deriving DecidableEq

/-- `TagTrieNode`: children keyed by character, plus the set of tag ids whose
synonym terminates at this node. -/
inductive TagTrieNode where
  | mk (children : List (Char × TagTrieNode)) (tag_ids : List String)

/-- The children map of a trie node. -/
def TagTrieNode.children : TagTrieNode → List (Char × TagTrieNode)
  | .mk cs _ => cs

/-- The terminating tag ids of a trie node. -/
def TagTrieNode.tagIds : TagTrieNode → List String
  | .mk _ ids => ids

/-- `TagTrieNode()`: a fresh node with no children and no tag ids. -/
def TagTrieNode.emptyNode : TagTrieNode := .mk [] []

/-- `_add_to_trie(name, tag_id, root)`: walks `name` character by character,
creating children as needed, and adds `tag_id` at the final node. -/
def addToTrie : List Char → String → TagTrieNode → TagTrieNode
  | [], tid, .mk cs ids => .mk cs (setAdd tid ids)
  | c :: rest, tid, .mk cs ids =>
      .mk (dictSet c (addToTrie rest tid ((dictGet c cs).getD .emptyNode)) cs) ids

mutual

/-- `_collect_tag_ids(node)`: the tag ids of the node and of all descendants.
The Python function returns a set; the model returns a list that is later
deduplicated where the source uses the set. -/
def TagTrieNode.collect : TagTrieNode → List String
  | .mk cs ids => ids ++ collectChildren cs

/-- The tag ids collected from a children list (the loop of `_collect_tag_ids`). -/
def collectChildren : List (Char × TagTrieNode) → List String
  | [] => []
  | (_, t) :: rest => t.collect ++ collectChildren rest

end

/-- Navigation to the node of a prefix (the walking loop of
`search_tags_by_prefix`): `none` when some character is absent. -/
def findNode : List Char → TagTrieNode → Option TagTrieNode
  | [], t => some t
  | c :: rest, t =>
      match dictGet c t.children with
      | none => none
      | some child => findNode rest child

/-- `s.lower()` followed by per-character iteration: the lower-cased character
list of a string. -/
def lowerStr (s : String) : List Char := s.data.map Char.toLower

/-- The state of a `DestinationLabelManager`: tag registry, destination store,
per-language tries and the category index (a `defaultdict(set)`). -/
structure DestinationLabelManager where
  tags : List (String × MultilingualTag) := []
  destinations : List (String × Destination) := []
  tag_tries : List (LanguageCode × TagTrieNode) := []
  category_index : List (TagCategory × List String) := []

/-- The inner loop of `add_tag` for one language: every synonym is lower-cased
and inserted into the trie. -/
def trieInsertNames (tid : String) (tr : TagTrieNode) (names : List String) : TagTrieNode :=
  names.foldl (fun r n => addToTrie (lowerStr n) tid r) tr

/-- The trie-updating loop of `add_tag`, generalised over the synonym pairs:
for each `(language, names)` pair the language's trie is created on first use
and extended with every name. -/
def addTagTriesAux (tid : String) (ps : List (LanguageCode × List String))
    (tries : List (LanguageCode × TagTrieNode)) : List (LanguageCode × TagTrieNode) :=
  ps.foldl (fun tr p => dictSet p.1 (trieInsertNames tid ((dictGet p.1 tr).getD .emptyNode) p.2) tr) tries

/-- `add_tag(tag)`: registers (or overwrites) the tag by id, adds the id to the
category index, and pushes every synonym into its language's trie. -/
def addTag (m : DestinationLabelManager) (tag : MultilingualTag) : DestinationLabelManager :=
  { tags := dictSet tag.id tag m.tags,
    destinations := m.destinations,
    tag_tries := addTagTriesAux tag.id tag.synonyms m.tag_tries,
    category_index :=
      dictSet tag.category (setAdd tag.id ((dictGet tag.category m.category_index).getD []))
        m.category_index }

/-- The candidate list of `search_tags_by_prefix` before sorting and
truncation: hydrated tag records for all ids in the matched subtree. The early
returns of the source (unknown language, absent prefix) coincide with the
empty candidate list. -/
def searchCandidates (m : DestinationLabelManager) (pre : String) (lang : LanguageCode) :
    List MultilingualTag :=
  match dictGet lang m.tag_tries with
  | none => []
  | some root =>
      match findNode (lowerStr pre) root with
      | none => []
      | some node => (node.collect.dedup).filterMap (fun tid => dictGet tid m.tags)

instance : DecidableRel (fun a b : MultilingualTag => b.weight ≤ a.weight) :=
  fun a b => inferInstanceAs (Decidable (b.weight ≤ a.weight))

/-- `tags.sort(key=lambda t: t.weight, reverse=True)`: the stable descending
sort by weight (Python's sort is stable; a stable sort is uniquely determined
by key and input order, so the stable insertion sort computes it). -/
def sortByWeightDesc (ts : List MultilingualTag) : List MultilingualTag :=
  List.insertionSort (fun a b => b.weight ≤ a.weight) ts

/-- `search_tags_by_prefix(prefix, lang, limit)`. -/
def searchTagsByPrefix (m : DestinationLabelManager) (pre : String) (lang : LanguageCode)
    (limit : Nat) : List MultilingualTag :=
  (sortByWeightDesc (searchCandidates m pre lang)).take limit

/-- The tag ids collected from an optional trie node (empty when absent). -/
def collectOf : Option TagTrieNode → List String
  | none => []
  | some t => t.collect

/-- All tag ids reachable anywhere in the trie of language `lang` of manager
`m` (observer used to state index-accumulation and consistency claims). -/
def trieLangIds (m : DestinationLabelManager) (lang : LanguageCode) : List String :=
  collectOf (dictGet lang m.tag_tries)

/-- The id set recorded in the category index for `c` (empty when absent). -/
def catIds (m : DestinationLabelManager) (c : TagCategory) : List String :=
  (dictGet c m.category_index).getD []

/-- `add_destination(destination)`: upsert by id. -/
def addDestination (m : DestinationLabelManager) (d : Destination) : DestinationLabelManager :=
  { m with destinations := dictSet d.id d m.destinations }

/-- Python's substring test `q in s` on character lists: `q` occurs
contiguously in `s`. -/
def subOccurs : List Char → List Char → Bool
  | q, [] => q.isEmpty
  | q, c :: t => q.isPrefixOf (c :: t) || subOccurs q t

/-- The inner name loop of `_calculate_tag_match_score` for one tag: the first
synonym containing the query yields `relevance * 2.0` on exact equality, else
`relevance * 1.0`, and the loop breaks; `none` when no synonym contains it. -/
def firstNameScore (qLower : List Char) (relevance : ℚ) : List String → Option ℚ
  | [] => none
  | name :: rest =>
      let nameLower := lowerStr name
      if subOccurs qLower nameLower then
        some (relevance * (if qLower = nameLower then 2 else 1))
      else firstNameScore qLower relevance rest

/-- `best_tag_score` for one query term: the maximum (starting from `0.0`) of
the per-tag scores over the destination's tag entries, skipping tag ids absent
from the registry. -/
def bestTagScore (m : DestinationLabelManager) (lang : LanguageCode) (qLower : List Char) :
    List (String × ℚ) → ℚ
  | [] => 0
  | (tid, relevance) :: rest =>
      let restScore := bestTagScore m lang qLower rest
      match dictGet tid m.tags with
      | none => restScore
      | some tag =>
          match firstNameScore qLower relevance (tag.getAllNames lang) with
          | none => restScore
          | some s => max s restScore

/-- The list of `best_tag_score(q)` values, one per query term in order. -/
def queryBestScores (m : DestinationLabelManager) (dest : Destination)
    (tagQueries : List String) (lang : LanguageCode) : List ℚ :=
  tagQueries.map (fun q => bestTagScore m lang (lowerStr q) dest.tags)

/-- `_calculate_tag_match_score(destination, tag_queries, lang)`:
`0.0` when the query list or the destination's tag map is empty, otherwise
`0.4 * coverage + 0.6 * average` over the per-query best scores. -/
def calculateTagMatchScore (m : DestinationLabelManager) (dest : Destination)
    (tagQueries : List String) (lang : LanguageCode) : ℚ :=
  if tagQueries.isEmpty ∨ dest.tags.isEmpty then 0
  else
    let scores := queryBestScores m dest tagQueries lang
    let matchedQueries := (scores.filter (fun s => decide (0 < s))).length
    let queryMatchRatio : ℚ := (matchedQueries : ℚ) / (tagQueries.length : ℚ)
    let averageScore : ℚ := scores.sum / (tagQueries.length : ℚ)
    queryMatchRatio * 0.4 + averageScore * 0.6

instance : DecidableRel (fun a b : Destination × ℚ => b.2 ≤ a.2) :=
  fun a b => inferInstanceAs (Decidable (b.2 ≤ a.2))

/-- `search_destinations_by_tags(queries, lang, min_match_score, limit)`:
scores every destination, keeps those at or above the threshold, sorts by
score descending (stable) and truncates. -/
def searchDestinationsByTags (m : DestinationLabelManager) (tagQueries : List String)
    (lang : LanguageCode) (minMatchScore : ℚ) (limit : Nat) : List Destination :=
  let results := (m.destinations.map Prod.snd).filterMap (fun d =>
    let s := calculateTagMatchScore m d tagQueries lang
    if minMatchScore ≤ s then some (d, s) else none)
  ((List.insertionSort (fun a b : Destination × ℚ => b.2 ≤ a.2) results).take limit).map Prod.fst

/-- `get_tags_by_category(category)`: hydrates the category index's id set. -/
def getTagsByCategory (m : DestinationLabelManager) (c : TagCategory) : List MultilingualTag :=
  (catIds m c).filterMap (fun tid => dictGet tid m.tags)

/-- One exported tag record: the JSON object written by `export_tags`, with
category and language codes already turned into strings. -/
structure TagData where
  id : String
  category : String
  synonyms : List (String × List String) := []
  description : List (String × String) := []
  weight : ℚ := 1
  parent_id : Option String := none
deriving DecidableEq

/-- The serialisation of one tag (the dict comprehension of `export_tags`). -/
def encodeTag (t : MultilingualTag) : TagData :=
  { id := t.id,
    category := t.category.value,
    synonyms := t.synonyms.map (fun p => (p.1.value, p.2)),
    description := t.description.map (fun p => (p.1.value, p.2)),
    weight := t.weight,
    parent_id := t.parent_id }

/-- `export_tags`: the structured document, keyed by tag id, that would be
written to the file. -/
def exportTags (m : DestinationLabelManager) : List (String × TagData) :=
  m.tags.map (fun p => (p.1, encodeTag p.2))

/-- Decoding a language-keyed map (the comprehensions of `import_tags`):
`none` models the `ValueError` raised on the first unknown language code. -/
def decodeLangList {α : Type} : List (String × α) → Option (List (LanguageCode × α))
  | [] => some []
  | (s, v) :: rest =>
      match LanguageCode.ofValue s with
      | none => none
      | some l =>
          match decodeLangList rest with
          | none => none
          | some r => some ((l, v) :: r)

/-- Decoding one imported record into a `MultilingualTag` (the constructor call
of `import_tags`); `none` models the `ValueError` raised by an unknown
category or language code. -/
def decodeTag (d : TagData) : Option MultilingualTag :=
  match TagCategory.ofValue d.category with
  | none => none
  | some cat =>
      match decodeLangList d.synonyms with
      | none => none
      | some syns =>
          match decodeLangList d.description with
          | none => none
          | some descs =>
              some { id := d.id, category := cat, synonyms := syns,
                     description := descs, weight := d.weight, parent_id := d.parent_id }

/-- The record loop of `import_tags`: records are decoded and added in order;
a decode failure raises, leaving the manager in the state reached so far
(`false` flags the raised error, `true` a completed import). -/
def importTagsAux (m : DestinationLabelManager) :
    List (String × TagData) → DestinationLabelManager × Bool
  | [] => (m, true)
  | (_, d) :: rest =>
      match decodeTag d with
      | none => (m, false)
      | some tag => importTagsAux (addTag m tag) rest

/-- `import_tags`: consume an exported document, mutating the manager. -/
def importTags (m : DestinationLabelManager) (ds : List (String × TagData)) :
    DestinationLabelManager × Bool :=
  importTagsAux m ds

/-- No tag id is indexed in some trie while absent from the registry: the
consistency property of §7 that a failed import must preserve. -/
def trieConsistent (m : DestinationLabelManager) : Prop :=
  ∀ pr ∈ m.tag_tries, ∀ tid ∈ TagTrieNode.collect pr.2, (dictGet tid m.tags).isSome

instance (m : DestinationLabelManager) : Decidable (trieConsistent m) :=
  inferInstanceAs (Decidable (∀ pr ∈ m.tag_tries, ∀ tid ∈ TagTrieNode.collect pr.2,
    (dictGet tid m.tags).isSome))

/-- The `beach` default tag of `_initialize_default_tags`. -/
def beachTag : MultilingualTag :=
  { id := "beach", category := .scenery,
    synonyms := [(.en, ["beach", "seaside", "coast"]),
                 (.zh, ["海滩", "沙滩", "海滨"]),
                 (.ja, ["ビーチ", "海岸", "浜辺"])],
    description := [(.en, "Sandy or pebbly shore by the ocean or sea"),
                    (.zh, "海洋或湖泊旁的沙滩或砾石滩")] }

/-- The `mountain` default tag. -/
def mountainTag : MultilingualTag :=
  { id := "mountain", category := .scenery,
    synonyms := [(.en, ["mountain", "alpine", "peak"]),
                 (.zh, ["山脉", "山峰", "山区"]),
                 (.ja, ["山", "マウンテン", "山岳"])] }

/-- The `historical` default tag. -/
def historicalTag : MultilingualTag :=
  { id := "historical", category := .culture,
    synonyms := [(.en, ["historical", "ancient", "heritage"]),
                 (.zh, ["历史古迹", "古迹", "文化遗产"]),
                 (.ja, ["歴史的", "遺跡", "文化遺産"])] }

/-- The `family_friendly` default tag. -/
def familyFriendlyTag : MultilingualTag :=
  { id := "family_friendly", category := .crowd,
    synonyms := [(.en, ["family-friendly", "kids-friendly", "child-friendly"]),
                 (.zh, ["适合家庭", "亲子友好", "儿童友好"]),
                 (.ja, ["家族向け", "子供連れOK", "ファミリー向け"])] }

/-- The `budget` default tag. -/
def budgetTag : MultilingualTag :=
  { id := "budget", category := .budget,
    synonyms := [(.en, ["budget", "economical", "affordable"]),
                 (.zh, ["经济型", "平价", "实惠"]),
                 (.ja, ["低予算", "経済的", "手頃"])] }

/-- The `luxury` default tag. -/
def luxuryTag : MultilingualTag :=
  { id := "luxury", category := .budget,
    synonyms := [(.en, ["luxury", "premium", "high-end"]),
                 (.zh, ["豪华", "高端", "奢华"]),
                 (.ja, ["ラグジュアリー", "高級", "贅沢"])] }

/-- The default tag library, in the order of `_initialize_default_tags`. -/
def defaultTags : List MultilingualTag :=
  [beachTag, mountainTag, historicalTag, familyFriendlyTag, budgetTag, luxuryTag]

/-- The manager state before `_initialize_default_tags` runs: all maps empty. -/
def emptyManager : DestinationLabelManager := {}

/-- `DestinationLabelManager()`: the constructor's result, with the default
tags already added. -/
def initManager : DestinationLabelManager := defaultTags.foldl addTag emptyManager

/-! ### Association-list and set lemmas -/

theorem dictGet_dictSet_self {κ α : Type} [DecidableEq κ] (k : κ) (v : α)
    (l : List (κ × α)) : dictGet k (dictSet k v l) = some v := by
  induction l with
  | nil => simp [dictGet, dictSet]
  | cons hd tl ih =>
      obtain ⟨k', v'⟩ := hd
      by_cases h : k' = k
      · simp [dictSet, dictGet, h]
      · simp [dictSet, dictGet, h, ih]

theorem dictGet_dictSet_ne {κ α : Type} [DecidableEq κ] {k k' : κ} (v : α)
    (l : List (κ × α)) (h : k' ≠ k) : dictGet k (dictSet k' v l) = dictGet k l := by
  induction l with
  | nil => simp [dictGet, dictSet, h]
  | cons hd tl ih =>
      obtain ⟨k₀, v₀⟩ := hd
      by_cases h0 : k₀ = k'
      · subst h0
        simp [dictSet, dictGet, h]
      · by_cases h1 : k₀ = k <;> simp [dictSet, dictGet, h0, h1, ih, Ne.symm h]

theorem dictGet_some_mem {κ α : Type} [DecidableEq κ] {k : κ} {v : α}
    {l : List (κ × α)} (h : dictGet k l = some v) : (k, v) ∈ l := by
  induction l with
  | nil => simp [dictGet] at h
  | cons hd tl ih =>
      obtain ⟨k₀, v₀⟩ := hd
      by_cases h0 : k₀ = k
      · subst h0
        simp [dictGet] at h
        simp [h]
      · simp [dictGet, h0] at h
        exact List.mem_cons_of_mem _ (ih h)

theorem isSome_dictGet_dictSet {κ α : Type} [DecidableEq κ] {k k' : κ} (v : α)
    (l : List (κ × α)) (h : (dictGet k l).isSome) :
    (dictGet k (dictSet k' v l)).isSome := by
  by_cases hk : k' = k
  · subst hk
    simp [dictGet_dictSet_self]
  · rwa [dictGet_dictSet_ne v l hk]

theorem dictSet_of_not_mem_keys {κ α : Type} [DecidableEq κ] {k : κ} (v : α)
    {l : List (κ × α)} (h : k ∉ l.map Prod.fst) : dictSet k v l = l ++ [(k, v)] := by
  induction l with
  | nil => simp [dictSet]
  | cons hd tl ih =>
      obtain ⟨k₀, v₀⟩ := hd
      simp only [List.map_cons, List.mem_cons, not_or] at h
      have hk : k₀ ≠ k := fun hh => h.1 hh.symm
      simp [dictSet, hk, ih h.2]

theorem mem_setAdd_iff {α : Type} [DecidableEq α] {x y : α} {s : List α} :
    x ∈ setAdd y s ↔ x = y ∨ x ∈ s := by
  unfold setAdd
  by_cases h : y ∈ s
  · simp only [if_pos h]
    constructor
    · exact Or.inr
    · rintro (rfl | hx)
      · exact h
      · exact hx
  · simp [if_neg h, or_comm]

/-! ### Trie lemmas -/

theorem mem_collect_addToTrie {tid' tid : String} (name : List Char) (tr : TagTrieNode) :
    tid' ∈ (addToTrie name tid tr).collect ↔ tid' = tid ∨ tid' ∈ tr.collect := by
  induction name generalizing tr with
  | nil =>
      obtain ⟨cs, ids⟩ := tr
      simp [addToTrie, TagTrieNode.collect, mem_setAdd_iff, or_assoc]
  | cons c rest ih =>
      obtain ⟨cs, ids⟩ := tr
      have key : ∀ cs' : List (Char × TagTrieNode),
          tid' ∈ collectChildren
            (dictSet c (addToTrie rest tid ((dictGet c cs').getD .emptyNode)) cs') ↔
          tid' = tid ∨ tid' ∈ collectChildren cs' := by
        intro cs'
        induction cs' with
        | nil =>
            simp [dictGet, dictSet, collectChildren, TagTrieNode.collect,
              ih, TagTrieNode.emptyNode]
        | cons hd tl ihc =>
            obtain ⟨c₀, t₀⟩ := hd
            by_cases hc : c₀ = c
            · subst hc
              simp only [dictGet, if_pos rfl, Option.getD_some, dictSet,
                collectChildren, List.mem_append, ih]
              tauto
            · simp only [dictGet, if_neg hc, dictSet, collectChildren,
                List.mem_append, ihc]
              tauto
      simp only [addToTrie, TagTrieNode.collect, List.mem_append, key]
      tauto

theorem findNode_addToTrie_of_isPre {p name : List Char} {tid : String} (tr : TagTrieNode)
    (hp : p <+: name) :
    ∃ nd, findNode p (addToTrie name tid tr) = some nd ∧ tid ∈ nd.collect := by
  induction p generalizing name tr with
  | nil =>
      exact ⟨addToTrie name tid tr, rfl, (mem_collect_addToTrie name tr).2 (Or.inl rfl)⟩
  | cons c p' ih =>
      obtain ⟨tl, rfl⟩ := hp
      obtain ⟨cs, ids⟩ := tr
      simp only [List.cons_append, addToTrie, findNode, TagTrieNode.children,
        dictGet_dictSet_self]
      exact ih _ ⟨tl, rfl⟩

theorem findNode_addToTrie_mono {p : List Char} {tid tid' : String} {tr nd : TagTrieNode}
    (name : List Char) (h : findNode p tr = some nd) (htid : tid ∈ nd.collect) :
    ∃ nd', findNode p (addToTrie name tid' tr) = some nd' ∧ tid ∈ nd'.collect := by
  induction p generalizing tr nd name with
  | nil =>
      simp only [findNode, Option.some.injEq] at h
      subst h
      exact ⟨addToTrie name tid' tr, rfl, (mem_collect_addToTrie name tr).2 (Or.inr htid)⟩
  | cons c p' ih =>
      obtain ⟨cs, ids⟩ := tr
      simp only [findNode, TagTrieNode.children] at h
      cases hg : dictGet c cs with
      | none => rw [hg] at h; exact absurd h (by simp)
      | some ch =>
          rw [hg] at h
          replace h : findNode p' ch = some nd := h
          cases name with
          | nil =>
              refine ⟨nd, ?_, htid⟩
              simp [addToTrie, findNode, TagTrieNode.children, hg, h]
          | cons c₀ rest =>
              by_cases hc : c₀ = c
              · subst hc
                obtain ⟨nd', hfind, hmem⟩ := @ih _ _ rest h htid
                refine ⟨nd', ?_, hmem⟩
                simp [addToTrie, findNode, TagTrieNode.children, dictGet_dictSet_self,
                  hg, hfind]
              · refine ⟨nd, ?_, htid⟩
                simp [addToTrie, findNode, TagTrieNode.children,
                  dictGet_dictSet_ne _ _ hc, hg, h]

theorem mem_collect_trieInsertNames {tid' tid : String} (names : List String)
    (tr : TagTrieNode) :
    tid' ∈ (trieInsertNames tid tr names).collect ↔
      (tid' = tid ∧ names ≠ []) ∨ tid' ∈ tr.collect := by
  induction names generalizing tr with
  | nil => simp [trieInsertNames]
  | cons n rest ih =>
      have : trieInsertNames tid tr (n :: rest) =
          trieInsertNames tid (addToTrie (lowerStr n) tid tr) rest := rfl
      rw [this, ih, mem_collect_addToTrie]
      rcases rest with - | ⟨r, rs⟩ <;> simp

theorem findNode_trieInsertNames_mono {p : List Char} {tid tid' : String}
    {tr nd : TagTrieNode} (names : List String) (h : findNode p tr = some nd)
    (htid : tid ∈ nd.collect) :
    ∃ nd', findNode p (trieInsertNames tid' tr names) = some nd' ∧ tid ∈ nd'.collect := by
  induction names generalizing tr nd with
  | nil => exact ⟨nd, h, htid⟩
  | cons n rest ih =>
      obtain ⟨nd₁, h₁, hm₁⟩ := @findNode_addToTrie_mono _ _ tid' _ _ (lowerStr n) h htid
      exact ih h₁ hm₁

theorem findNode_trieInsertNames_of_mem {p : List Char} {tid : String} {s : String}
    {names : List String} (tr : TagTrieNode) (hs : s ∈ names) (hp : p <+: lowerStr s) :
    ∃ nd, findNode p (trieInsertNames tid tr names) = some nd ∧ tid ∈ nd.collect := by
  induction names generalizing tr with
  | nil => cases hs
  | cons n rest ih =>
      have hstep : trieInsertNames tid tr (n :: rest) =
          trieInsertNames tid (addToTrie (lowerStr n) tid tr) rest := rfl
      rcases List.mem_cons.1 hs with rfl | hmem
      · obtain ⟨nd₁, h₁, hm₁⟩ := @findNode_addToTrie_of_isPre _ _ tid tr hp
        rw [hstep]
        exact findNode_trieInsertNames_mono rest h₁ hm₁
      · rw [hstep]
        exact ih _ hmem

theorem reach_addTagTriesAux_mono {lang : LanguageCode} {tid tid' : String}
    {p : List Char} {tries : List (LanguageCode × TagTrieNode)} {root nd : TagTrieNode}
    (ps : List (LanguageCode × List String))
    (hroot : dictGet lang tries = some root) (hfind : findNode p root = some nd)
    (htid : tid ∈ nd.collect) :
    ∃ root' nd', dictGet lang (addTagTriesAux tid' ps tries) = some root' ∧
      findNode p root' = some nd' ∧ tid ∈ nd'.collect := by
  induction ps generalizing tries root nd with
  | nil => exact ⟨root, nd, hroot, hfind, htid⟩
  | cons q rest ih =>
      obtain ⟨l, ns⟩ := q
      have hstep : addTagTriesAux tid' ((l, ns) :: rest) tries =
          addTagTriesAux tid' rest
            (dictSet l (trieInsertNames tid' ((dictGet l tries).getD .emptyNode) ns) tries) := rfl
      rw [hstep]
      by_cases hl : l = lang
      · subst hl
        rw [hroot]
        obtain ⟨nd₁, h₁, hm₁⟩ := @findNode_trieInsertNames_mono _ _ tid' _ _ ns hfind htid
        exact ih (dictGet_dictSet_self _ _ _) h₁ hm₁
      · exact ih (by rw [dictGet_dictSet_ne _ _ hl, hroot]) hfind htid

theorem reach_addTagTriesAux_of_mem {lang : LanguageCode} {tid : String} {s : String}
    {names : List String} {p : List Char}
    (ps : List (LanguageCode × List String)) (tries : List (LanguageCode × TagTrieNode))
    (hmem : (lang, names) ∈ ps) (hs : s ∈ names) (hp : p <+: lowerStr s) :
    ∃ root nd, dictGet lang (addTagTriesAux tid ps tries) = some root ∧
      findNode p root = some nd ∧ tid ∈ nd.collect := by
  induction ps generalizing tries with
  | nil => cases hmem
  | cons q rest ih =>
      obtain ⟨l, ns⟩ := q
      have hstep : addTagTriesAux tid ((l, ns) :: rest) tries =
          addTagTriesAux tid rest
            (dictSet l (trieInsertNames tid ((dictGet l tries).getD .emptyNode) ns) tries) := rfl
      rw [hstep]
      rcases List.mem_cons.1 hmem with heq | hmem'
      · injection heq with heq1 heq2
        subst heq1
        subst heq2
        obtain ⟨nd₁, h₁, hm₁⟩ :=
          findNode_trieInsertNames_of_mem ((dictGet lang tries).getD .emptyNode) hs hp
        exact reach_addTagTriesAux_mono rest (dictGet_dictSet_self _ _ _) h₁ hm₁
      · exact ih _ hmem'

/-! ### Claim C3 -/

/-- C3: for every tag `t` added via `add_tag`, every language `L`, every
synonym `s` in `t.synonyms[L]`, and every `prefix` that is a case-insensitive
prefix of `s`, `search_tags_by_prefix(prefix, L, limit)` on the updated
manager includes `t`, provided `limit` is large enough (here: at least the
number of candidate tags, which makes the weight-ranking proviso vacuous). -/
theorem c3_added_synonym_searchable
    (m : DestinationLabelManager) (t : MultilingualTag) (lang : LanguageCode)
    (names : List String) (s pre : String) (limit : Nat)
    (hlang : dictGet lang t.synonyms = some names) (hs : s ∈ names)
    (hp : lowerStr pre <+: lowerStr s)
    (hlim : (searchCandidates (addTag m t) pre lang).length ≤ limit) :
    t ∈ searchTagsByPrefix (addTag m t) pre lang limit := by
  obtain ⟨root, nd, hroot, hfind, htid⟩ :=
    @reach_addTagTriesAux_of_mem _ t.id _ _ _ t.synonyms m.tag_tries
      (dictGet_some_mem hlang) hs hp
  have htries : (addTag m t).tag_tries = addTagTriesAux t.id t.synonyms m.tag_tries := rfl
  have hcand : t ∈ searchCandidates (addTag m t) pre lang := by
    simp only [searchCandidates, htries, hroot, hfind]
    refine List.mem_filterMap.2 ⟨t.id, List.mem_dedup.2 htid, ?_⟩
    show dictGet t.id (dictSet t.id t m.tags) = some t
    exact dictGet_dictSet_self _ _ _
  have hperm := List.perm_insertionSort (fun a b : MultilingualTag => b.weight ≤ a.weight)
    (searchCandidates (addTag m t) pre lang)
  have hlen : (sortByWeightDesc (searchCandidates (addTag m t) pre lang)).length ≤ limit := by
    rw [sortByWeightDesc, hperm.length_eq]
    exact hlim
  rw [searchTagsByPrefix, List.take_of_length_le hlen, sortByWeightDesc]
  exact hperm.mem_iff.2 hcand

/-- A small concrete tag used to witness C3. -/
def alphaTag : MultilingualTag :=
  { id := "t1", category := .scenery, synonyms := [(.en, ["Alpha"])] }

/-- Witness for C3: a concrete manager, tag, synonym and prefix on which the
hypotheses of `c3_added_synonym_searchable` hold and the search result
contains the tag. -/
theorem c3_witness :
    dictGet .en alphaTag.synonyms = some ["Alpha"] ∧ "Alpha" ∈ ["Alpha"] ∧
      lowerStr "AL" <+: lowerStr "Alpha" ∧
      (searchCandidates (addTag emptyManager alphaTag) "AL" .en).length ≤ 10 ∧
      alphaTag ∈ searchTagsByPrefix (addTag emptyManager alphaTag) "AL" .en 10 :=
  ⟨by decide, by decide, by decide, by decide,
    c3_added_synonym_searchable emptyManager alphaTag .en ["Alpha"] "Alpha" "AL" 10
      (by decide) (by decide) (by decide) (by decide)⟩

/-! ### Claim C7 -/

/-- C7: re-adding a tag id replaces the registry record but retracts nothing:
every tag id reachable in any language trie and every id in any category's
index set before an `add_tag` call is still present afterwards, and the
registry maps the tag's id to the new record. -/
theorem c7_readd_keeps_stale_entries (m : DestinationLabelManager) (t : MultilingualTag) :
    (∀ lang tid, tid ∈ trieLangIds m lang → tid ∈ trieLangIds (addTag m t) lang) ∧
    (∀ c tid, tid ∈ catIds m c → tid ∈ catIds (addTag m t) c) ∧
    dictGet t.id (addTag m t).tags = some t := by
  refine ⟨?_, ?_, dictGet_dictSet_self _ _ _⟩
  · intro lang tid htid
    rw [trieLangIds] at htid
    cases hroot : dictGet lang m.tag_tries with
    | none => rw [hroot] at htid; cases htid
    | some root =>
        rw [hroot] at htid
        obtain ⟨root', nd', hg', hf', hm'⟩ :=
          @reach_addTagTriesAux_mono _ _ t.id [] _ _ _ t.synonyms hroot rfl htid
        have hnd : nd' = root' := by
          have : findNode [] root' = some root' := rfl
          rw [this] at hf'
          exact (Option.some.injEq _ _ ▸ hf').symm
        subst hnd
        have htries : (addTag m t).tag_tries = addTagTriesAux t.id t.synonyms m.tag_tries := rfl
        rw [trieLangIds, htries, hg']
        exact hm'
  · intro c tid htid
    rw [catIds] at htid ⊢
    have hidx : (addTag m t).category_index =
        dictSet t.category (setAdd t.id ((dictGet t.category m.category_index).getD []))
          m.category_index := rfl
    rw [hidx]
    by_cases hc : t.category = c
    · subst hc
      rw [dictGet_dictSet_self]
      exact mem_setAdd_iff.2 (Or.inr htid)
    · rw [dictGet_dictSet_ne _ _ hc]
      exact htid

/-- The original version of the re-added id used to witness C7. -/
def betaTag : MultilingualTag :=
  { id := "t2", category := .scenery, synonyms := [(.en, ["beta"])] }

/-- The replacement record for the same id, with no `en` synonyms and a
different category. -/
def betaTagV2 : MultilingualTag :=
  { id := "t2", category := .culture, synonyms := [] }

/-- Witness for C7: after re-adding id `t2` with no `en` synonyms and a new
category, the stale `en` trie entry and the stale `scenery` index entry
survive, and the registry now holds the new record. -/
theorem c7_witness :
    "t2" ∈ trieLangIds (addTag (addTag emptyManager betaTag) betaTagV2) .en ∧
      "t2" ∈ catIds (addTag (addTag emptyManager betaTag) betaTagV2) .scenery ∧
      dictGet "t2" (addTag (addTag emptyManager betaTag) betaTagV2).tags = some betaTagV2 :=
  ⟨(c7_readd_keeps_stale_entries (addTag emptyManager betaTag) betaTagV2).1 .en "t2" (by decide),
    (c7_readd_keeps_stale_entries (addTag emptyManager betaTag) betaTagV2).2.1 .scenery "t2"
      (by decide),
    (c7_readd_keeps_stale_entries (addTag emptyManager betaTag) betaTagV2).2.2⟩

/-! ### Claim C9 -/

/-- C9: for every manager, destination and language, the match score is
exactly `0.0` whenever the query list is empty or the destination's tag map
is empty. -/
theorem c9_empty_zero (m : DestinationLabelManager) (d : Destination)
    (qs : List String) (lang : LanguageCode) (h : qs = [] ∨ d.tags = []) :
    calculateTagMatchScore m d qs lang = 0 := by
  rcases h with rfl | he
  · simp [calculateTagMatchScore]
  · simp [calculateTagMatchScore, he]

/-- Witness for C9: an empty query list on one side, a destination without
tags on the other, both scoring `0.0` against the default registry. -/
theorem c9_witness :
    calculateTagMatchScore initManager { id := "d0" } [] .en = 0 ∧
      calculateTagMatchScore initManager { id := "d0" } ["beach"] .en = 0 :=
  ⟨c9_empty_zero initManager { id := "d0" } [] .en (Or.inl rfl),
    c9_empty_zero initManager { id := "d0" } ["beach"] .en (Or.inr rfl)⟩

/-! ### Claim C8 -/

theorem bestTagScore_filter (m : DestinationLabelManager) (lang : LanguageCode)
    (q : List Char) (ts : List (String × ℚ)) :
    bestTagScore m lang q (ts.filter (fun p => (dictGet p.1 m.tags).isSome)) =
      bestTagScore m lang q ts := by
  induction ts with
  | nil => rfl
  | cons hd tl ih =>
      obtain ⟨tid, rel⟩ := hd
      cases hg : dictGet tid m.tags with
      | none => simp [List.filter_cons, hg, bestTagScore, ih]
      | some tag => simp [List.filter_cons, hg, bestTagScore, ih]

theorem sum_map_zeros {α : Type} (l : List α) : (l.map (fun _ => (0 : ℚ))).sum = 0 := by
  induction l <;> simp [*]

theorem filter_map_zeros {α : Type} (l : List α) :
    ((l.map (fun _ => (0 : ℚ))).filter (fun s => decide (0 < s))).length = 0 := by
  induction l <;> simp [*]

/-- C8: lookups with no match return an empty result and never an error:
an unindexed language yields `[]` from `search_tags_by_prefix`, a prefix whose
walk falls off the trie yields `[]`, an unregistered category yields `[]` from
`get_tags_by_category`, and tag ids in a destination's tag map that are absent
from the registry are skipped by the scoring loop — the score equals the score
of the destination with those entries filtered away. -/
theorem c8_notfound_empty (m : DestinationLabelManager) (pre : String)
    (lang : LanguageCode) (n : Nat) (c : TagCategory) (d : Destination)
    (qs : List String) :
    (dictGet lang m.tag_tries = none → searchTagsByPrefix m pre lang n = []) ∧
    (∀ root, dictGet lang m.tag_tries = some root →
      findNode (lowerStr pre) root = none → searchTagsByPrefix m pre lang n = []) ∧
    (dictGet c m.category_index = none → getTagsByCategory m c = []) ∧
    calculateTagMatchScore m d qs lang =
      calculateTagMatchScore m
        { d with tags := d.tags.filter (fun p => (dictGet p.1 m.tags).isSome) } qs lang := by
  refine ⟨?_, ?_, ?_, ?_⟩
  · intro h
    simp [searchTagsByPrefix, sortByWeightDesc, searchCandidates, h]
  · intro root hroot hwalk
    simp [searchTagsByPrefix, sortByWeightDesc, searchCandidates, hroot, hwalk]
  · intro h
    simp [getTagsByCategory, catIds, h]
  · by_cases hq : qs = []
    · subst hq
      simp [calculateTagMatchScore]
    · by_cases ht : d.tags = []
      · have hf : d.tags.filter (fun p => (dictGet p.1 m.tags).isSome) = [] := by
          rw [ht]; rfl
        simp [calculateTagMatchScore, ht, hf]
      · by_cases hf : d.tags.filter (fun p => (dictGet p.1 m.tags).isSome) = []
        · have hz : ∀ q : String, bestTagScore m lang (lowerStr q) d.tags = 0 := by
            intro q
            rw [← bestTagScore_filter, hf]
            rfl
          have hrhs : calculateTagMatchScore m
              { d with tags := d.tags.filter (fun p => (dictGet p.1 m.tags).isSome) }
              qs lang = 0 := by
            simp [calculateTagMatchScore, hf]
          rw [hrhs, calculateTagMatchScore, if_neg (by simp [hq, ht])]
          simp only [queryBestScores, hz, filter_map_zeros, sum_map_zeros]
          norm_num
        · have hsc : queryBestScores m
              { d with tags := d.tags.filter (fun p => (dictGet p.1 m.tags).isSome) }
              qs lang = queryBestScores m d qs lang := by
            simp [queryBestScores, bestTagScore_filter]
          rw [calculateTagMatchScore, calculateTagMatchScore,
            if_neg (by simp [hq, ht]), if_neg (by simp [hq, hf]), hsc]

/-- A one-tag manager used by witnesses: only language `en` is indexed. -/
def oneTagManager : DestinationLabelManager := addTag emptyManager alphaTag

/-- A destination whose only tag reference is absent from the registry. -/
def ghostDest : Destination := { id := "g", tags := [("ghost", 1)] }

/-- Witness for C8: an unindexed language, a dead-end prefix and an unknown
category each give `[]`, and a dangling tag reference is skipped (the score
equals the score with the reference filtered away). -/
theorem c8_witness :
    searchTagsByPrefix oneTagManager "x" .zh 10 = [] ∧
      searchTagsByPrefix oneTagManager "xyz" .en 10 = [] ∧
      getTagsByCategory oneTagManager .budget = [] ∧
      calculateTagMatchScore oneTagManager ghostDest ["alpha"] .en =
        calculateTagMatchScore oneTagManager
          { ghostDest with
            tags := ghostDest.tags.filter (fun p => (dictGet p.1 oneTagManager.tags).isSome) }
          ["alpha"] .en :=
  ⟨(c8_notfound_empty oneTagManager "x" .zh 10 .budget ghostDest ["alpha"]).1 rfl,
    (c8_notfound_empty oneTagManager "xyz" .en 10 .budget ghostDest ["alpha"]).2.1
      (trieInsertNames alphaTag.id TagTrieNode.emptyNode ["Alpha"]) rfl rfl,
    (c8_notfound_empty oneTagManager "xyz" .en 10 .budget ghostDest ["alpha"]).2.2.1 rfl,
    (c8_notfound_empty oneTagManager "xyz" .en 10 .budget ghostDest ["alpha"]).2.2.2⟩

/-! ### Claims C1 and C2 -/

/-- The destination of the spec's concrete scenario:
`tags={"historical": 0.9, "mountain": 0.7}`. -/
def histMountainDest : Destination :=
  { id := "d", tags := [("historical", 0.9), ("mountain", 0.7)] }

theorem c1_raw_scores :
    queryBestScores initManager histMountainDest ["historical", "mountain", "family"] .en =
      [max ((0.9 : ℚ) * 2) 0, max ((0.7 : ℚ) * 2) 0, 0] := rfl

theorem c1_scores :
    queryBestScores initManager histMountainDest ["historical", "mountain", "family"] .en =
      [9/5, 7/5, 0] := by
  rw [c1_raw_scores]
  norm_num [max_def]

/-- C1, counterexample: on the spec's own scenario the final score is not
`0.4 * (2/3) + 0.6 * ((0.9 + 0.7)/3)`: exact synonym matches are scored with
the `2.0` multiplier, so the per-query best scores are `1.8` and `1.4`, not
`0.9` and `0.7`. -/
theorem c1_counterexample :
    calculateTagMatchScore initManager histMountainDest
      ["historical", "mountain", "family"] .en ≠ 0.4 * (2/3) + 0.6 * (8/15) := by
  have hval : calculateTagMatchScore initManager histMountainDest
      ["historical", "mountain", "family"] .en = 68/75 := by
    simp only [calculateTagMatchScore]
    rw [if_neg (by decide), c1_scores]
    norm_num [List.filter_cons, List.filter_nil]
  rw [hval]
  norm_num

/-- C1 as amended: on the scenario's registry and destination the code yields
`matched_count = 2`, per-query best scores `[1.8, 1.4, 0]` (exact matches are
doubled), `coverage = 2/3`, `average = (1.8 + 1.4)/3 = 16/15`, and final score
`0.4 * (2/3) + 0.6 * (16/15) = 68/75 ≈ 0.9067`. -/
theorem c1_amended_score :
    ((queryBestScores initManager histMountainDest ["historical", "mountain", "family"]
        .en).filter (fun s => decide (0 < s))).length = 2 ∧
      (queryBestScores initManager histMountainDest ["historical", "mountain", "family"]
        .en).sum / 3 = 16/15 ∧
      calculateTagMatchScore initManager histMountainDest
        ["historical", "mountain", "family"] .en = 0.4 * (2/3) + 0.6 * (16/15) := by
  refine ⟨?_, ?_, ?_⟩
  · rw [c1_scores]
    norm_num [List.filter_cons, List.filter_nil]
  · rw [c1_scores]
    norm_num
  · simp only [calculateTagMatchScore]
    rw [if_neg (by decide), c1_scores]
    norm_num [List.filter_cons, List.filter_nil]

/-- A destination holding the `luxury` tag with relevance `1.0`. -/
def luxDest : Destination := { id := "L", tags := [("luxury", 1)] }

/-- A destination holding the `luxury` tag with relevance `2/3`. -/
def luxDest23 : Destination := { id := "M", tags := [("luxury", 2/3)] }

theorem c2_raw_one :
    queryBestScores initManager luxDest ["luxury"] .en = [max ((1 : ℚ) * 2) 0] := rfl

theorem c2_raw_twothirds :
    queryBestScores initManager luxDest23 ["luxury"] .en = [max ((2/3 : ℚ) * 2) 0] := rfl

/-- C2: the final match score is not bounded by `1`: with the default registry
a destination tagged `luxury` at relevance `1` and query `["luxury"]` (an
exact match, scored `relevance * 2.0`) reaches `1.6 > 1`, and the same query
at relevance `2/3` gives exactly `1.2`. -/
theorem c2_score_exceeds_one :
    1 < calculateTagMatchScore initManager luxDest ["luxury"] .en ∧
      calculateTagMatchScore initManager luxDest ["luxury"] .en = 8/5 ∧
      calculateTagMatchScore initManager luxDest23 ["luxury"] .en = 6/5 := by
  have h1 : calculateTagMatchScore initManager luxDest ["luxury"] .en = 8/5 := by
    simp only [calculateTagMatchScore]
    rw [if_neg (by decide), c2_raw_one]
    norm_num [List.filter_cons, List.filter_nil, max_def]
  have h2 : calculateTagMatchScore initManager luxDest23 ["luxury"] .en = 6/5 := by
    simp only [calculateTagMatchScore]
    rw [if_neg (by decide), c2_raw_twothirds]
    norm_num [List.filter_cons, List.filter_nil, max_def]
  exact ⟨by rw [h1]; norm_num, h1, h2⟩

/-! ### Claim C4 -/

theorem languageCode_ofValue_value (l : LanguageCode) :
    LanguageCode.ofValue l.value = some l := by
  cases l <;> rfl

theorem tagCategory_ofValue_value (c : TagCategory) :
    TagCategory.ofValue c.value = some c := by
  cases c <;> rfl

theorem decodeLangList_encode {α : Type} (l : List (LanguageCode × α)) :
    decodeLangList (l.map (fun p => (p.1.value, p.2))) = some l := by
  induction l with
  | nil => rfl
  | cons hd tl ih =>
      obtain ⟨lang, v⟩ := hd
      simp [decodeLangList, languageCode_ofValue_value, ih]

theorem decodeTag_encodeTag (t : MultilingualTag) : decodeTag (encodeTag t) = some t := by
  simp [decodeTag, encodeTag, tagCategory_ofValue_value, decodeLangList_encode]

theorem importTagsAux_export (l : List (String × MultilingualTag))
    (m0 : DestinationLabelManager) :
    importTagsAux m0 (l.map (fun p => (p.1, encodeTag p.2))) =
      ((l.map Prod.snd).foldl addTag m0, true) := by
  induction l generalizing m0 with
  | nil => rfl
  | cons hd tl ih =>
      obtain ⟨k, t⟩ := hd
      simp [importTagsAux, decodeTag_encodeTag, ih]

theorem foldl_addTag_tags (ts : List MultilingualTag) (m0 : DestinationLabelManager)
    (hdisj : ∀ t ∈ ts, t.id ∉ m0.tags.map Prod.fst)
    (hnodup : (ts.map (fun t => t.id)).Nodup) :
    (ts.foldl addTag m0).tags = m0.tags ++ ts.map (fun t => (t.id, t)) := by
  induction ts generalizing m0 with
  | nil => simp
  | cons t rest ih =>
      rw [List.map_cons] at hnodup
      obtain ⟨hnotin, hnodup'⟩ := List.nodup_cons.mp hnodup
      have h1 : (addTag m0 t).tags = m0.tags ++ [(t.id, t)] :=
        dictSet_of_not_mem_keys _ (hdisj t (List.mem_cons_self t rest))
      have hdisj' : ∀ u ∈ rest, u.id ∉ (addTag m0 t).tags.map Prod.fst := by
        intro u hu
        rw [h1]
        simp only [List.map_append, List.mem_append, List.map_cons, List.map_nil,
          List.mem_singleton, not_or]
        refine ⟨hdisj u (List.mem_cons_of_mem t hu), ?_⟩
        intro he
        exact hnotin (he ▸ List.mem_map_of_mem (fun t => t.id) hu)
      rw [List.foldl_cons, ih (addTag m0 t) hdisj' hnodup', h1]
      simp

/-- C4: exporting a registry and importing the export into a freshly cleared
registry (empty maps) succeeds and reproduces the tag map exactly — same ids,
categories, synonym maps with synonym-list order preserved, description maps,
weights and parent ids — for every registry whose tag map has dict-shaped
keys (each key equals its record's id, keys pairwise distinct). -/
theorem c4_roundtrip (m : DestinationLabelManager)
    (hkeys : ∀ p ∈ m.tags, p.1 = p.2.id)
    (hnodup : (m.tags.map Prod.fst).Nodup) :
    (importTags emptyManager (exportTags m)).2 = true ∧
      (importTags emptyManager (exportTags m)).1.tags = m.tags := by
  have hids : (m.tags.map Prod.snd).map (fun t => t.id) = m.tags.map Prod.fst := by
    rw [List.map_map]
    exact List.map_congr_left (fun p hp => (hkeys p hp).symm)
  have him := importTagsAux_export m.tags emptyManager
  have hfold := foldl_addTag_tags (m.tags.map Prod.snd) emptyManager
    (by intro t ht; show t.id ∉ [].map Prod.fst; simp) (by rw [hids]; exact hnodup)
  constructor
  · show (importTagsAux emptyManager (m.tags.map (fun p => (p.1, encodeTag p.2)))).2 = true
    rw [him]
  · show (importTagsAux emptyManager
      (m.tags.map (fun p => (p.1, encodeTag p.2)))).1.tags = m.tags
    rw [him]
    show ((m.tags.map Prod.snd).foldl addTag emptyManager).tags = m.tags
    rw [hfold]
    have hemp : emptyManager.tags = [] := rfl
    rw [hemp, List.nil_append, List.map_map]
    conv_rhs => rw [← List.map_id m.tags]
    refine List.map_congr_left ?_
    intro p hp
    show (p.2.id, p.2) = p
    rw [← hkeys p hp]

/-- A two-tag registry used to witness the round-trip. -/
def roundtripManager : DestinationLabelManager := addTag (addTag emptyManager alphaTag) betaTag

/-- Witness for C4: the concrete two-tag registry satisfies the dict-key
hypotheses, and export followed by import into the empty manager succeeds and
reproduces its tag map. -/
theorem c4_witness :
    (∀ p ∈ roundtripManager.tags, p.1 = p.2.id) ∧
      (roundtripManager.tags.map Prod.fst).Nodup ∧
      (importTags emptyManager (exportTags roundtripManager)).2 = true ∧
      (importTags emptyManager (exportTags roundtripManager)).1.tags = roundtripManager.tags :=
  ⟨by decide, by decide,
    (c4_roundtrip roundtripManager (by decide) (by decide)).1,
    (c4_roundtrip roundtripManager (by decide) (by decide)).2⟩

/-! ### Claim C5 -/

theorem decodeLangList_none {α : Type} (l : List (String × α))
    (h : ∃ q ∈ l, LanguageCode.ofValue q.1 = none) : decodeLangList l = none := by
  induction l with
  | nil => simp at h
  | cons hd tl ih =>
      obtain ⟨s, v⟩ := hd
      obtain ⟨q, hq, hql⟩ := h
      rcases List.mem_cons.1 hq with rfl | hq'
      · simp only at hql
        simp [decodeLangList, hql]
      · cases hov : LanguageCode.ofValue s with
        | none => simp [decodeLangList, hov]
        | some lc => simp [decodeLangList, hov, ih ⟨q, hq', hql⟩]

theorem decodeTag_none_of_bad (d : TagData)
    (hbad : TagCategory.ofValue d.category = none ∨
      (∃ q ∈ d.synonyms, LanguageCode.ofValue q.1 = none) ∨
      ∃ q ∈ d.description, LanguageCode.ofValue q.1 = none) :
    decodeTag d = none := by
  rcases hbad with hc | hl | hd
  · simp [decodeTag, hc]
  · cases hcat : TagCategory.ofValue d.category with
    | none => simp [decodeTag, hcat]
    | some c => simp [decodeTag, hcat, decodeLangList_none d.synonyms hl]
  · cases hcat : TagCategory.ofValue d.category with
    | none => simp [decodeTag, hcat]
    | some c =>
        cases hsyn : decodeLangList d.synonyms with
        | none => simp [decodeTag, hcat, hsyn]
        | some syns => simp [decodeTag, hcat, hsyn, decodeLangList_none d.description hd]

theorem importTagsAux_error (m : DestinationLabelManager) (ds : List (String × TagData))
    (hbad : ∃ p ∈ ds, decodeTag p.2 = none) : (importTagsAux m ds).2 = false := by
  induction ds generalizing m with
  | nil => simp at hbad
  | cons hd tl ih =>
      obtain ⟨k, d⟩ := hd
      cases hdec : decodeTag d with
      | none => simp [importTagsAux, hdec]
      | some t =>
          obtain ⟨p, hp, hpn⟩ := hbad
          rcases List.mem_cons.1 hp with rfl | hp'
          · simp only at hpn
            rw [hdec] at hpn
            cases hpn
          · simp only [importTagsAux, hdec]
            exact ih _ ⟨p, hp', hpn⟩

theorem mem_dictSet {κ α : Type} [DecidableEq κ] {pr : κ × α} {k : κ} {v : α}
    {l : List (κ × α)} (h : pr ∈ dictSet k v l) : pr = (k, v) ∨ pr ∈ l := by
  induction l with
  | nil => simp [dictSet] at h; simp [h]
  | cons hd tl ih =>
      obtain ⟨k₀, v₀⟩ := hd
      by_cases hk : k₀ = k
      · rw [dictSet, if_pos hk] at h
        rcases List.mem_cons.1 h with rfl | h'
        · exact Or.inl rfl
        · exact Or.inr (List.mem_cons_of_mem _ h')
      · rw [dictSet, if_neg hk] at h
        rcases List.mem_cons.1 h with rfl | h'
        · exact Or.inr (List.mem_cons_self _ _)
        · rcases ih h' with he | hm
          · exact Or.inl he
          · exact Or.inr (List.mem_cons_of_mem _ hm)

theorem emptyNode_collect : TagTrieNode.emptyNode.collect = [] := rfl

theorem trie_ids_addTagTriesAux {tid' tid : String}
    (ps : List (LanguageCode × List String)) (tries : List (LanguageCode × TagTrieNode))
    (pr : LanguageCode × TagTrieNode) (hpr : pr ∈ addTagTriesAux tid ps tries)
    (htid' : tid' ∈ pr.2.collect) :
    tid' = tid ∨ ∃ pr₀ ∈ tries, tid' ∈ TagTrieNode.collect pr₀.2 := by
  induction ps generalizing tries with
  | nil => exact Or.inr ⟨pr, hpr, htid'⟩
  | cons q rest ih =>
      obtain ⟨l, ns⟩ := q
      have hstep : addTagTriesAux tid ((l, ns) :: rest) tries =
          addTagTriesAux tid rest
            (dictSet l (trieInsertNames tid ((dictGet l tries).getD .emptyNode) ns) tries) := rfl
      rw [hstep] at hpr
      rcases ih _ hpr with htid | ⟨pr₀, hpr₀, htid₀⟩
      · exact Or.inl htid
      · rcases mem_dictSet hpr₀ with rfl | hmem
        · simp only at htid₀
          rcases (mem_collect_trieInsertNames ns _).1 htid₀ with ⟨he, -⟩ | hroot
          · exact Or.inl he
          · cases hg : dictGet l tries with
            | none =>
                rw [hg] at hroot
                rw [Option.getD_none, emptyNode_collect] at hroot
                cases hroot
            | some r =>
                rw [hg, Option.getD_some] at hroot
                exact Or.inr ⟨(l, r), dictGet_some_mem hg, hroot⟩
        · exact Or.inr ⟨pr₀, hmem, htid₀⟩

theorem trieConsistent_addTag (m : DestinationLabelManager) (t : MultilingualTag)
    (h : trieConsistent m) : trieConsistent (addTag m t) := by
  intro pr hpr tid htid
  have htries : (addTag m t).tag_tries = addTagTriesAux t.id t.synonyms m.tag_tries := rfl
  rw [htries] at hpr
  rcases trie_ids_addTagTriesAux t.synonyms m.tag_tries pr hpr htid with rfl | ⟨pr₀, hpr₀, htid₀⟩
  · show (dictGet t.id (dictSet t.id t m.tags)).isSome
    rw [dictGet_dictSet_self]
    rfl
  · exact isSome_dictGet_dictSet _ _ (h pr₀ hpr₀ tid htid₀)

theorem trieConsistent_importTagsAux (m : DestinationLabelManager)
    (ds : List (String × TagData)) (h : trieConsistent m) :
    trieConsistent (importTagsAux m ds).1 := by
  induction ds generalizing m with
  | nil => exact h
  | cons hd tl ih =>
      obtain ⟨k, d⟩ := hd
      cases hdec : decodeTag d with
      | none => simp only [importTagsAux, hdec]; exact h
      | some t => simp only [importTagsAux, hdec]; exact ih _ (trieConsistent_addTag m t h)

/-- C5: a record with an unknown category code or an unknown language code —
in its synonyms map or in its description map — fails to decode, the run that
encounters it reports the error (it does not return success with the record
silently dropped), and no failed run breaks per-record atomicity: the
trie-consistency invariant — every tag id indexed in some trie has its record
in the registry — holds for the state that the failed run leaves behind. -/
theorem c5_import_decode_error (m : DestinationLabelManager)
    (ds : List (String × TagData)) (p : String × TagData) (hp : p ∈ ds)
    (hbad : TagCategory.ofValue p.2.category = none ∨
      (∃ q ∈ p.2.synonyms, LanguageCode.ofValue q.1 = none) ∨
      ∃ q ∈ p.2.description, LanguageCode.ofValue q.1 = none)
    (hcons : trieConsistent m) :
    decodeTag p.2 = none ∧ (importTags m ds).2 = false ∧
      trieConsistent (importTags m ds).1 := by
  have hdec := decodeTag_none_of_bad p.2 hbad
  exact ⟨hdec, importTagsAux_error m ds ⟨p, hp, hdec⟩,
    trieConsistent_importTagsAux m ds hcons⟩

/-- An import record carrying an unknown category code. -/
def badTagData : TagData := { id := "x", category := "hotel" }

/-- An import record whose only unknown code is a language key of its
description map. -/
def badDescData : TagData :=
  { id := "y", category := "scenery", description := [("xx", "a place")] }

/-- Witness for C5: importing a record with category code `hotel` (not a
`TagCategory` value) into the one-tag manager fails with a decode error and
leaves the trie-consistency invariant intact; likewise for a record whose
unknown language code `xx` sits in its description map. -/
theorem c5_witness :
    ("bad", badTagData) ∈ [("bad", badTagData)] ∧
      TagCategory.ofValue badTagData.category = none ∧
      trieConsistent oneTagManager ∧
      decodeTag badTagData = none ∧
      (importTags oneTagManager [("bad", badTagData)]).2 = false ∧
      trieConsistent (importTags oneTagManager [("bad", badTagData)]).1 ∧
      (∃ q ∈ badDescData.description, LanguageCode.ofValue q.1 = none) ∧
      decodeTag badDescData = none ∧
      (importTags oneTagManager [("bad2", badDescData)]).2 = false :=
  ⟨by decide, by decide, by decide,
    (c5_import_decode_error oneTagManager [("bad", badTagData)] ("bad", badTagData)
      (by decide) (Or.inl (by decide)) (by decide)).1,
    (c5_import_decode_error oneTagManager [("bad", badTagData)] ("bad", badTagData)
      (by decide) (Or.inl (by decide)) (by decide)).2.1,
    (c5_import_decode_error oneTagManager [("bad", badTagData)] ("bad", badTagData)
      (by decide) (Or.inl (by decide)) (by decide)).2.2,
    by decide,
    (c5_import_decode_error oneTagManager [("bad2", badDescData)] ("bad2", badDescData)
      (by decide) (Or.inr (Or.inr (by decide))) (by decide)).1,
    (c5_import_decode_error oneTagManager [("bad2", badDescData)] ("bad2", badDescData)
      (by decide) (Or.inr (Or.inr (by decide))) (by decide)).2.1⟩

/-! ### Claim C6 -/

/-- First version of tag id `a`: weight `5`, `en` synonym `alpha`. -/
def staleTagV1 : MultilingualTag :=
  { id := "a", category := .scenery, synonyms := [(.en, ["alpha"])], weight := 5 }

/-- Re-added version of tag id `a`: same weight, no synonyms at all. -/
def staleTagV2 : MultilingualTag :=
  { id := "a", category := .scenery, synonyms := [], weight := 5 }

/-- A live tag `b` with an `en` synonym and lower weight. -/
def liveTag : MultilingualTag :=
  { id := "b", category := .scenery, synonyms := [(.en, ["beta"])], weight := 1 }

/-- The registry after adding `a` (v1), re-adding `a` without synonyms (v2),
then adding `b`. -/
def staleManager : DestinationLabelManager :=
  addTag (addTag (addTag emptyManager staleTagV1) staleTagV2) liveTag

/-- C6, counterexample: after a re-add, `search_tags_by_prefix("", en, 1)`
returns the current record of `a` — which has no `en` synonym at all — via its
stale trie entry, and omits `b`, the only registered tag with an `en`
synonym, although the limit `1` covers all such tags. So the result is not
"all tags with at least one synonym in `en`, up to `n`". -/
theorem c6_counterexample :
    searchTagsByPrefix staleManager "" .en 1 = [staleTagV2] ∧
      staleTagV2.getAllNames .en = [] ∧
      dictGet "b" staleManager.tags = some liveTag ∧
      liveTag.getAllNames .en = ["beta"] ∧
      liveTag ∉ searchTagsByPrefix staleManager "" .en 1 := by
  decide

theorem dictGet_of_mem_nodup {κ α : Type} [DecidableEq κ] {l : List (κ × α)} {p : κ × α}
    (hnodup : (l.map Prod.fst).Nodup) (hp : p ∈ l) : dictGet p.1 l = some p.2 := by
  induction l with
  | nil => cases hp
  | cons hd tl ih =>
      obtain ⟨k₀, v₀⟩ := hd
      rw [List.map_cons] at hnodup
      obtain ⟨hnotin, hnd⟩ := List.nodup_cons.mp hnodup
      rcases List.mem_cons.1 hp with rfl | hp'
      · simp [dictGet]
      · have hne : k₀ ≠ p.1 := by
          intro he
          apply hnotin
          rw [he]
          exact List.mem_map.2 ⟨p, hp', rfl⟩
        simp [dictGet, hne, ih hnd hp']

theorem getAllNames_ne_iff (t : MultilingualTag) (lang : LanguageCode)
    (hsyn : (t.synonyms.map Prod.fst).Nodup) :
    t.getAllNames lang ≠ [] ↔ ∃ p ∈ t.synonyms, p.1 = lang ∧ p.2 ≠ [] := by
  constructor
  · intro h
    rw [MultilingualTag.getAllNames] at h
    cases hg : dictGet lang t.synonyms with
    | none => rw [hg] at h; simp at h
    | some names =>
        rw [hg] at h
        exact ⟨(lang, names), dictGet_some_mem hg, rfl, by simpa using h⟩
  · rintro ⟨p, hp, hl, hn⟩
    have hget : dictGet lang t.synonyms = some p.2 := by
      rw [← hl]
      exact dictGet_of_mem_nodup hsyn hp
    rw [MultilingualTag.getAllNames, hget]
    simpa using hn

theorem collect_getD_emptyNode (o : Option TagTrieNode) :
    (o.getD TagTrieNode.emptyNode).collect = collectOf o := by
  cases o <;> rfl

theorem mem_collectOf_dictSet_step {tid' tid : String} {lang l : LanguageCode}
    (ns : List String) (tries : List (LanguageCode × TagTrieNode)) :
    tid' ∈ collectOf (dictGet lang
        (dictSet l (trieInsertNames tid ((dictGet l tries).getD .emptyNode) ns) tries)) ↔
      (tid' = tid ∧ l = lang ∧ ns ≠ []) ∨ tid' ∈ collectOf (dictGet lang tries) := by
  by_cases hl : l = lang
  · subst hl
    rw [dictGet_dictSet_self]
    show tid' ∈ (trieInsertNames tid ((dictGet l tries).getD .emptyNode) ns).collect ↔ _
    rw [mem_collect_trieInsertNames, collect_getD_emptyNode]
    simp
  · rw [dictGet_dictSet_ne _ _ hl]
    simp [hl]

theorem mem_collectOf_addTagTriesAux {tid' tid : String} {lang : LanguageCode}
    (ps : List (LanguageCode × List String)) (tries : List (LanguageCode × TagTrieNode)) :
    tid' ∈ collectOf (dictGet lang (addTagTriesAux tid ps tries)) ↔
      (tid' = tid ∧ ∃ p ∈ ps, p.1 = lang ∧ p.2 ≠ []) ∨
        tid' ∈ collectOf (dictGet lang tries) := by
  induction ps generalizing tries with
  | nil => simp [addTagTriesAux]
  | cons q rest ih =>
      obtain ⟨l, ns⟩ := q
      have hstep : addTagTriesAux tid ((l, ns) :: rest) tries =
          addTagTriesAux tid rest
            (dictSet l (trieInsertNames tid ((dictGet l tries).getD .emptyNode) ns) tries) := rfl
      rw [hstep, ih, mem_collectOf_dictSet_step]
      constructor
      · rintro (⟨ht, p, hp, hPl, hPn⟩ | (⟨ht, hll, hns⟩ | hold))
        · exact Or.inl ⟨ht, p, List.mem_cons_of_mem _ hp, hPl, hPn⟩
        · exact Or.inl ⟨ht, (l, ns), List.mem_cons_self _ _, hll, hns⟩
        · exact Or.inr hold
      · rintro (⟨ht, p, hp, hPl, hPn⟩ | hold)
        · rcases List.mem_cons.1 hp with rfl | hp'
          · exact Or.inr (Or.inl ⟨ht, hPl, hPn⟩)
          · exact Or.inl ⟨ht, p, hp', hPl, hPn⟩
        · exact Or.inr (Or.inr hold)

theorem mem_trieLangIds_foldl {tid' : String} {lang : LanguageCode}
    (ts : List MultilingualTag) (m0 : DestinationLabelManager) :
    tid' ∈ trieLangIds (ts.foldl addTag m0) lang ↔
      (∃ t ∈ ts, t.id = tid' ∧ ∃ p ∈ t.synonyms, p.1 = lang ∧ p.2 ≠ []) ∨
        tid' ∈ trieLangIds m0 lang := by
  induction ts generalizing m0 with
  | nil => simp
  | cons t rest ih =>
      rw [List.foldl_cons, ih]
      have haddTag : trieLangIds (addTag m0 t) lang =
          collectOf (dictGet lang (addTagTriesAux t.id t.synonyms m0.tag_tries)) := rfl
      rw [haddTag, mem_collectOf_addTagTriesAux]
      constructor
      · rintro (⟨t', ht', hid, hP⟩ | (⟨ht, hP⟩ | hold))
        · exact Or.inl ⟨t', List.mem_cons_of_mem _ ht', hid, hP⟩
        · exact Or.inl ⟨t, List.mem_cons_self _ _, ht.symm, hP⟩
        · exact Or.inr hold
      · rintro (⟨t', ht', hid, hP⟩ | hold)
        · rcases List.mem_cons.1 ht' with rfl | hmem
          · exact Or.inr (Or.inl ⟨hid.symm, hP⟩)
          · exact Or.inl ⟨t', hmem, hid, hP⟩
        · exact Or.inr (Or.inr hold)

theorem dictGet_map_self (ts : List MultilingualTag) (t : MultilingualTag)
    (hnodup : (ts.map (fun u => u.id)).Nodup) (ht : t ∈ ts) :
    dictGet t.id (ts.map (fun u => (u.id, u))) = some t := by
  induction ts with
  | nil => cases ht
  | cons u rest ih =>
      rw [List.map_cons] at hnodup
      obtain ⟨hnotin, hnd⟩ := List.nodup_cons.mp hnodup
      rcases List.mem_cons.1 ht with rfl | ht'
      · simp [dictGet]
      · have hne : u.id ≠ t.id := fun he => hnotin (he ▸ List.mem_map_of_mem _ ht')
        simp [dictGet, hne, ih hnd ht']

theorem dictGet_map_mem {ts : List MultilingualTag} {tid : String} {t : MultilingualTag}
    (h : dictGet tid (ts.map (fun u => (u.id, u))) = some t) : t ∈ ts ∧ t.id = tid := by
  induction ts with
  | nil => simp [dictGet] at h
  | cons u rest ih =>
      by_cases he : u.id = tid
      · simp only [List.map_cons, dictGet, if_pos he, Option.some.injEq] at h
        subst h
        exact ⟨List.mem_cons_self _ _, he⟩
      · simp only [List.map_cons, dictGet, if_neg he] at h
        obtain ⟨hm, hid⟩ := ih h
        exact ⟨List.mem_cons_of_mem _ hm, hid⟩

/-- C6 as amended: for a registry built by `add_tag` from tags with pairwise
distinct ids (no re-adds) and dict-shaped synonym maps,
`search_tags_by_prefix("", L, n)` returns only registered tags having at
least one synonym in `L`, returns every such tag whenever `n` is at least
their number, and is ordered by descending weight. (The unamended claim fails
once an id is re-added with changed synonyms: stale trie entries surface
tags without synonyms in `L` and can displace tags that have them.) -/
theorem c6_amended_empty_query (ts : List MultilingualTag) (lang : LanguageCode) (n : Nat)
    (hnodup : (ts.map (fun t => t.id)).Nodup)
    (hsyn : ∀ t ∈ ts, (t.synonyms.map Prod.fst).Nodup) :
    (∀ t ∈ searchTagsByPrefix (ts.foldl addTag emptyManager) "" lang n,
        t ∈ ts ∧ t.getAllNames lang ≠ []) ∧
    ((ts.filter (fun t => decide (t.getAllNames lang ≠ []))).length ≤ n →
      ∀ t ∈ ts, t.getAllNames lang ≠ [] →
        t ∈ searchTagsByPrefix (ts.foldl addTag emptyManager) "" lang n) ∧
    (searchTagsByPrefix (ts.foldl addTag emptyManager) "" lang n).Pairwise
      (fun a b => b.weight ≤ a.weight) := by
  set M := ts.foldl addTag emptyManager with hM
  have htags : M.tags = ts.map (fun t => (t.id, t)) := by
    have h0 := foldl_addTag_tags ts emptyManager
      (by
        intro t ht
        show t.id ∉ ([] : List (String × MultilingualTag)).map Prod.fst
        simp) hnodup
    rw [hM, h0]
    show emptyManager.tags ++ _ = _
    rw [show emptyManager.tags = [] from rfl, List.nil_append]
  have htrie : ∀ tid' : String, tid' ∈ trieLangIds M lang ↔
      ∃ t ∈ ts, t.id = tid' ∧ ∃ p ∈ t.synonyms, p.1 = lang ∧ p.2 ≠ [] := by
    intro tid'
    rw [hM, mem_trieLangIds_foldl]
    have hempty : tid' ∈ trieLangIds emptyManager lang ↔ False := by
      simp [trieLangIds, emptyManager, dictGet, collectOf]
    rw [hempty, or_false]
  have hcand : ∀ t, t ∈ searchCandidates M "" lang ↔
      t ∈ ts ∧ t.getAllNames lang ≠ [] := by
    intro t
    cases hroot : dictGet lang M.tag_tries with
    | none =>
        have h1 : searchCandidates M "" lang = [] := by
          simp [searchCandidates, hroot]
        rw [h1]
        simp only [List.not_mem_nil, false_iff, not_and]
        intro hts hn
        have hin := (htrie t.id).2
          ⟨t, hts, rfl, (getAllNames_ne_iff t lang (hsyn t hts)).1 hn⟩
        rw [trieLangIds, hroot] at hin
        simp [collectOf] at hin
    | some root =>
        have hwalk : findNode (lowerStr "") root = some root := rfl
        have h1 : searchCandidates M "" lang =
            (root.collect.dedup).filterMap (fun tid => dictGet tid M.tags) := by
          simp [searchCandidates, hroot, hwalk]
        rw [h1, List.mem_filterMap]
        constructor
        · rintro ⟨tid, htid, hget⟩
          rw [htags] at hget
          obtain ⟨hts, hid⟩ := dictGet_map_mem hget
          have hidin : t.id ∈ trieLangIds M lang := by
            rw [trieLangIds, hroot]
            show t.id ∈ root.collect
            rw [hid]
            exact List.mem_dedup.1 htid
          obtain ⟨t', ht's, ht'id, hP⟩ := (htrie t.id).1 hidin
          have heq : t' = t := List.inj_on_of_nodup_map hnodup ht's hts ht'id
          subst heq
          exact ⟨hts, (getAllNames_ne_iff t' lang (hsyn t' hts)).2 hP⟩
        · rintro ⟨hts, hn⟩
          have hidin : t.id ∈ trieLangIds M lang :=
            (htrie t.id).2 ⟨t, hts, rfl, (getAllNames_ne_iff t lang (hsyn t hts)).1 hn⟩
          rw [trieLangIds, hroot] at hidin
          refine ⟨t.id, List.mem_dedup.2 hidin, ?_⟩
          rw [htags]
          exact dictGet_map_self ts t hnodup hts
  haveI hTot : IsTotal MultilingualTag (fun a b => b.weight ≤ a.weight) :=
    ⟨fun a b => le_total b.weight a.weight⟩
  haveI hTrans : IsTrans MultilingualTag (fun a b => b.weight ≤ a.weight) :=
    ⟨fun a b c hab hbc => le_trans hbc hab⟩
  have hperm := List.perm_insertionSort (fun a b : MultilingualTag => b.weight ≤ a.weight)
    (searchCandidates M "" lang)
  refine ⟨?_, ?_, ?_⟩
  · intro t ht
    rw [searchTagsByPrefix] at ht
    have h1 : t ∈ sortByWeightDesc (searchCandidates M "" lang) :=
      (List.take_sublist _ _).subset ht
    rw [sortByWeightDesc] at h1
    exact (hcand t).1 (hperm.mem_iff.1 h1)
  · intro hlen t hts hn
    have htc : t ∈ searchCandidates M "" lang := (hcand t).2 ⟨hts, hn⟩
    have hsub : ∀ u ∈ searchCandidates M "" lang,
        u ∈ ts.filter (fun t => decide (t.getAllNames lang ≠ [])) := by
      intro u hu
      obtain ⟨hu1, hu2⟩ := (hcand u).1 hu
      rw [List.mem_filter]
      exact ⟨hu1, decide_eq_true hu2⟩
    have hndc : (searchCandidates M "" lang).Nodup := by
      cases hroot : dictGet lang M.tag_tries with
      | none => simp [searchCandidates, hroot]
      | some root =>
          have hwalk : findNode (lowerStr "") root = some root := rfl
          have h1 : searchCandidates M "" lang =
              (root.collect.dedup).filterMap (fun tid => dictGet tid M.tags) := by
            simp [searchCandidates, hroot, hwalk]
          rw [h1]
          refine List.Nodup.filterMap ?_ (List.nodup_dedup _)
          intro a a' b hb hb'
          rw [Option.mem_def, htags] at hb hb'
          obtain ⟨-, hid⟩ := dictGet_map_mem hb
          obtain ⟨-, hid'⟩ := dictGet_map_mem hb'
          rw [← hid, ← hid']
    have hgl : (searchCandidates M "" lang).length ≤
        (ts.filter (fun t => decide (t.getAllNames lang ≠ []))).length := by
      classical
      have h1 : (searchCandidates M "" lang).toFinset ⊆
          (ts.filter (fun t => decide (t.getAllNames lang ≠ []))).toFinset := by
        intro x hx
        rw [List.mem_toFinset] at hx ⊢
        exact hsub x hx
      calc (searchCandidates M "" lang).length
          = (searchCandidates M "" lang).toFinset.card :=
            (List.toFinset_card_of_nodup hndc).symm
        _ ≤ (ts.filter (fun t => decide (t.getAllNames lang ≠ []))).toFinset.card :=
            Finset.card_le_card h1
        _ ≤ _ := List.toFinset_card_le _
    have hlen2 : (sortByWeightDesc (searchCandidates M "" lang)).length ≤ n := by
      rw [sortByWeightDesc, hperm.length_eq]
      exact le_trans hgl hlen
    rw [searchTagsByPrefix, List.take_of_length_le hlen2, sortByWeightDesc]
    exact hperm.mem_iff.2 htc
  · rw [searchTagsByPrefix]
    have hsorted := List.sorted_insertionSort (fun a b : MultilingualTag => b.weight ≤ a.weight)
      (searchCandidates M "" lang)
    exact List.Pairwise.sublist (List.take_sublist _ _) hsorted

/-- Witness for C6: on the two-tag no-re-add registry `[staleTagV1, liveTag]`
the completeness half of the amended claim applies: both tags have an `en`
synonym and the limit `5` covers them, so `liveTag` is returned. -/
theorem c6_witness :
    (([staleTagV1, liveTag].map (fun t => t.id)).Nodup) ∧
      (∀ t ∈ [staleTagV1, liveTag], (t.synonyms.map Prod.fst).Nodup) ∧
      (([staleTagV1, liveTag].filter
        (fun t => decide (t.getAllNames .en ≠ []))).length ≤ 5) ∧
      liveTag ∈ searchTagsByPrefix ([staleTagV1, liveTag].foldl addTag emptyManager) "" .en 5 :=
  ⟨by decide, by decide, by decide,
    (c6_amended_empty_query [staleTagV1, liveTag] .en 5 (by decide) (by decide)).2.1
      (by decide) liveTag (by decide) (by decide)⟩

/-! ### Claim C10 -/

/-- C10: a freshly constructed `DestinationLabelManager` is never empty — the
constructor pre-seeds exactly the six default tag ids `beach`, `mountain`,
`historical`, `family_friendly`, `budget`, `luxury` (in that order), indexes
each of them in the `en` trie, and records each in its category's index; a
caller wanting the spec's "freshly cleared registry" must clear the maps
manually (modelled by `emptyManager`). -/
theorem c10_default_tags_seeded :
    initManager.tags.map Prod.fst =
      ["beach", "mountain", "historical", "family_friendly", "budget", "luxury"] ∧
      initManager.tags ≠ [] ∧
      (∀ tid ∈ ["beach", "mountain", "historical", "family_friendly", "budget", "luxury"],
        tid ∈ trieLangIds initManager .en) ∧
      "beach" ∈ catIds initManager .scenery ∧
      "mountain" ∈ catIds initManager .scenery ∧
      "historical" ∈ catIds initManager .culture ∧
      "family_friendly" ∈ catIds initManager .crowd ∧
      "budget" ∈ catIds initManager .budget ∧
      "luxury" ∈ catIds initManager .budget := by
  decide
